import Mathlib

/-!
Verification of the rom2msx layout engine (src/rom2msx.cpp).

The program converts a raw MSX cartridge ROM into a flash-programmable
image: it pads the ROM to a multiple of the 8 KiB bank size with 0xFF,
validates capacity, resolves a start bank per mapper policy
(MegaSCC / RC755 / Simple64K), copies the banks into an output buffer of
the selected chip size initialised to 0xFF, and optionally verifies the
written image.

Bytes are modelled as `Nat` (the source uses `uint8_t`; no arithmetic is
performed on byte values, only copies and comparisons, so no modular
reasoning is needed).  Buffers are `List Nat`.  The fatal `die` calls of
the source are modelled as `Except` errors; each distinct error message
of the core pipeline is a distinct constructor.  The counted `for` loops
of the source are modelled as structurally recursive functions carrying
the number of remaining iterations together with the current loop index.
-/

namespace Rom2Msx

/-- Bank size, 8 KiB (`BANK_SIZE` in src/rom2msx.cpp, line 112). -/
def BANK_SIZE : Nat := 8192

/-- The three cartridge types (`enum class CartType`, line 69). -/
inductive CartType
  | MegaSCC
  | RC755
  | Simple64K
deriving DecidableEq

/-- Errors of the conversion pipeline.  `capacityError` covers the two
`die` calls at lines 127 and 132 (ROM too large for Simple64K window /
for the chip), `rangeError` the `die` calls at lines 154 and 164
(start bank placement does not fit), `overflowError` the defensive
`die` at line 177 (bank placement exceeds output buffer). -/
inductive ConvError
  | capacityError
  | rangeError
  | overflowError
deriving DecidableEq

/-- Errors of the optional verify pass (lines 193-218).
`bankMismatch bank` models the message `mismatch in bank <bank>`
(line 207), which names the offending bank; `outsideNonFF` models the
fixed message `non-0xFF found outside written area` (line 216), which
carries no location. -/
inductive VerifyError
  | bankMismatch (bank : Nat)
  | outsideNonFF
deriving DecidableEq

/-- Input normalization (lines 117-121): pad the ROM with `0xFF` up to
the next multiple of `BANK_SIZE` if it is not already a multiple
(`rom.resize(padded, 0xFF)` grows the vector by appending fill bytes). -/
def normalize (rom : List Nat) : List Nat :=
  if rom.length % BANK_SIZE = 0 then rom
  else rom ++ List.replicate ((rom.length + BANK_SIZE - 1) / BANK_SIZE * BANK_SIZE - rom.length) 255

/-- `in_banks` (line 122): number of 8 KiB banks after normalization. -/
def bankCount (rom : List Nat) : Nat :=
  (normalize rom).length / BANK_SIZE

/-- `std::memcpy(out.data() + dstOff, src.data() + srcOff, len)`
(line 179) on list buffers: replace `dst[dstOff .. dstOff+len)` by
`src[srcOff .. srcOff+len)`. -/
def memcpy (dst : List Nat) (dstOff : Nat) (src : List Nat) (srcOff len : Nat) : List Nat :=
  dst.take dstOff ++ (src.drop srcOff).take len ++ dst.drop (dstOff + len)

/-- The placement loop (lines 172-180) with `remaining` iterations left
and current bank index `bank` (the source loop runs `bank` from `0` to
`in_banks - 1`, so it is entered with `remaining = in_banks` and
`bank = 0`): check that the destination range fits in the output buffer
(otherwise `die` with the overflow message, line 177), then copy the
bank and continue. -/
def placeLoop (rom : List Nat) (startBank : Nat) :
    Nat → Nat → List Nat → Except ConvError (List Nat)
  | 0, _, out => .ok out
  | remaining + 1, bank, out =>
    if (startBank + bank) * BANK_SIZE + BANK_SIZE > out.length then
      .error ConvError.overflowError
    else
      placeLoop rom startBank remaining (bank + 1)
        (memcpy out ((startBank + bank) * BANK_SIZE) rom (bank * BANK_SIZE) BANK_SIZE)

/-- Start-bank resolution (lines 139-169).  `hint` is `some h` when
`--addr h` was given (the parser restricts `h` to 0..7, line 104), and
`none` otherwise (`s64k_addr = -1`). -/
def resolveStart (ty : CartType) (hint : Option Nat) (romLen inBanks : Nat) :
    Except ConvError Nat :=
  match ty, hint with
  | CartType.MegaSCC, _ => .ok 0
  | CartType.RC755, _ => .ok 0
  | CartType.Simple64K, some h =>
      if h + inBanks > 8 then .error ConvError.rangeError else .ok h
  | CartType.Simple64K, none =>
      if romLen / 1024 ≤ 32 then
        if 2 + inBanks > 8 then .error ConvError.rangeError else .ok 2
      else
        if 0 + inBanks > 8 then .error ConvError.rangeError else .ok 0

/-- The conversion core (lines 112-180): normalize, validate capacity
(Simple64K 8-bank window first, then chip capacity), resolve the start
bank, and place the banks into a `0xFF`-filled buffer of
`chipKib * 1024` bytes.  On success, returns the output image together
with the resolved start bank and the bank count. -/
def convert (rom : List Nat) (chipKib : Nat) (ty : CartType) (hint : Option Nat) :
    Except ConvError (List Nat × Nat × Nat) :=
  let chipBytes := chipKib * 1024
  let rom' := normalize rom
  let inBanks := rom'.length / BANK_SIZE
  if ty = CartType.Simple64K ∧ inBanks > 8 then
    .error ConvError.capacityError
  else if rom'.length > chipBytes then
    .error ConvError.capacityError
  else
    match resolveStart ty hint rom'.length inBanks with
    | .error e => .error e
    | .ok sb =>
      match placeLoop rom' sb inBanks 0 (List.replicate chipBytes 255) with
      | .error e => .error e
      | .ok out => .ok (out, sb, inBanks)

/-- Inner loop of the bank check (lines 205-209), with `remaining`
iterations left and current byte index `i` (entered with
`remaining = BANK_SIZE`, `i = 0`): `false` at the first diverging byte
(the source `die`s there; only the bank index is observable, so the
inner loop is Boolean).  Out-of-bounds indexing (undefined behaviour in
the C++ source) is totalized with default 0. -/
def bankBytesLoop (vb rom : List Nat) (startBank bank : Nat) : Nat → Nat → Bool
  | 0, _ => true
  | remaining + 1, i =>
    if vb.getD ((startBank + bank) * BANK_SIZE + i) 0 ==
        rom.getD (bank * BANK_SIZE + i) 0 then
      bankBytesLoop vb rom startBank bank remaining (i + 1)
    else
      false

/-- All `BANK_SIZE` bytes of output bank `startBank + bank` equal the
corresponding bytes of ROM bank `bank` (lines 205-209). -/
def bankBytesMatch (vb rom : List Nat) (startBank bank : Nat) : Bool :=
  bankBytesLoop vb rom startBank bank BANK_SIZE 0

/-- Outer loop of the bank check (lines 203-210), with `remaining`
iterations left and current bank index `bank` (entered with
`remaining = in_banks`, `bank = 0`): die with `bankMismatch` at the
first bank whose content diverges. -/
def verifyBanksLoop (vb rom : List Nat) (startBank : Nat) :
    Nat → Nat → Except VerifyError Unit
  | 0, _ => .ok ()
  | remaining + 1, bank =>
    if bankBytesMatch vb rom startBank bank then
      verifyBanksLoop vb rom startBank remaining (bank + 1)
    else
      .error (VerifyError.bankMismatch bank)

/-- The fill check (lines 212-217), with `remaining` iterations left and
current offset `i` (entered with `remaining = vb.length`, `i = 0`):
every byte outside the written bank window must be `0xFF`; die with the
(locationless) `outsideNonFF` error otherwise. -/
def verifyOutsideLoop (vb : List Nat) (startBank inBanks : Nat) :
    Nat → Nat → Except VerifyError Unit
  | 0, _ => .ok ()
  | remaining + 1, i =>
    if ¬(startBank ≤ i / BANK_SIZE ∧ i / BANK_SIZE < startBank + inBanks) ∧
        vb.getD i 0 ≠ 255 then
      .error VerifyError.outsideNonFF
    else
      verifyOutsideLoop vb startBank inBanks remaining (i + 1)

/-- The verify pass (lines 193-218): check bank contents, then the
`0xFF` fill outside the written window. -/
def verify (vb rom : List Nat) (startBank inBanks : Nat) : Except VerifyError Unit :=
  match verifyBanksLoop vb rom startBank inBanks 0 with
  | .error e => .error e
  | .ok _ => verifyOutsideLoop vb startBank inBanks vb.length 0

/-- Start bank of a conversion result, if it succeeded. -/
def startOf (r : Except ConvError (List Nat × Nat × Nat)) : Option Nat :=
  match r with
  | .ok (_, sb, _) => some sb
  | .error _ => none

/-- Output image of a successful conversion result (empty list on error). -/
def okOut (r : Except ConvError (List Nat × Nat × Nat)) : List Nat :=
  match r with
  | .ok (out, _, _) => out
  | .error _ => []

/-- Observable events of one run of `main`'s core: either the pipeline
aborts with an error (`die` calls `std::exit`, line 44, so `write_file`
at line 182 is never reached), or the full image is written to the
sink. -/
inductive Event
  | errorAbort (e : ConvError)
  | wrote (bytes : List Nat)
deriving DecidableEq

/-- One run of the core pipeline as an event trace: the source calls
`write_file` (line 182) only after every check and the whole placement
loop have succeeded; any `die` terminates the process before it. -/
def runMain (rom : List Nat) (chipKib : Nat) (ty : CartType) (hint : Option Nat) :
    List Event :=
  match convert rom chipKib ty hint with
  | .error e => [Event.errorAbort e]
  | .ok (out, _, _) => [Event.wrote out]

/-- First divergent bank at or after `bank` with `remaining` banks left
to scan (scan order of the loop at line 203). -/
def firstBadLoop (vb rom : List Nat) (startBank : Nat) : Nat → Nat → Option Nat
  | 0, _ => none
  | remaining + 1, bank =>
    if bankBytesMatch vb rom startBank bank then
      firstBadLoop vb rom startBank remaining (bank + 1)
    else
      some bank

/-- First bank (scan order of the loop at line 203) whose content
diverges between output and ROM. -/
def firstBadBank (vb rom : List Nat) (startBank inBanks : Nat) : Option Nat :=
  firstBadLoop vb rom startBank inBanks 0

/-- Whether some byte outside the written window differs from `0xFF`
(the condition scanned by the loop at line 212). -/
def anyOutsideNonFF (vb : List Nat) (startBank inBanks : Nat) : Bool :=
  (List.range vb.length).any fun i =>
    !(decide (startBank ≤ i / BANK_SIZE ∧ i / BANK_SIZE < startBank + inBanks)) &&
      !(vb.getD i 0 == 255)

/-! ### Basic facts about normalization -/

theorem BANK_SIZE_eq : BANK_SIZE = 8192 := rfl

theorem normalize_length (rom : List Nat) :
    (normalize rom).length = (rom.length + BANK_SIZE - 1) / BANK_SIZE * BANK_SIZE := by
  unfold normalize BANK_SIZE
  split
  · omega
  · simp only [List.length_append, List.length_replicate]
    omega

theorem normalize_length_mod (rom : List Nat) :
    (normalize rom).length % BANK_SIZE = 0 := by
  rw [normalize_length]
  unfold BANK_SIZE
  omega

theorem normalize_length_eq_bankCount_mul (rom : List Nat) :
    (normalize rom).length = bankCount rom * BANK_SIZE := by
  have h := normalize_length_mod rom
  unfold bankCount
  unfold BANK_SIZE at *
  omega

theorem le_normalize_length (rom : List Nat) :
    rom.length ≤ (normalize rom).length := by
  rw [normalize_length]
  unfold BANK_SIZE
  omega

theorem normalize_nil : normalize [] = [] := rfl

theorem bankCount_def (rom : List Nat) :
    (normalize rom).length / BANK_SIZE = bankCount rom := rfl

/-! ### memcpy characterization -/

theorem memcpy_length (dst src : List Nat) (dOff sOff len : Nat)
    (hd : dOff + len ≤ dst.length) (hs : sOff + len ≤ src.length) :
    (memcpy dst dOff src sOff len).length = dst.length := by
  unfold memcpy
  simp only [List.length_append, List.length_take, List.length_drop]
  omega

theorem memcpy_getElem (dst src : List Nat) (dOff sOff len o : Nat)
    (hd : dOff + len ≤ dst.length) (hs : sOff + len ≤ src.length) :
    (memcpy dst dOff src sOff len)[o]? =
      if dOff ≤ o ∧ o < dOff + len then src[sOff + (o - dOff)]? else dst[o]? := by
  unfold memcpy
  have htk : (dst.take dOff).length = dOff := by
    simp only [List.length_take]; omega
  have hmid : ((src.drop sOff).take len).length = len := by
    simp only [List.length_take, List.length_drop]; omega
  rw [List.append_assoc]
  rcases Nat.lt_or_ge o dOff with h1 | h1
  · rw [List.getElem?_append_left (by rw [htk]; omega), List.getElem?_take_of_lt h1]
    rw [if_neg (by omega)]
  · rw [List.getElem?_append_right (by rw [htk]; omega), htk]
    rcases Nat.lt_or_ge o (dOff + len) with h2 | h2
    · rw [List.getElem?_append_left (by rw [hmid]; omega),
        List.getElem?_take_of_lt (by omega), List.getElem?_drop]
      rw [if_pos ⟨h1, h2⟩]
    · rw [List.getElem?_append_right (by rw [hmid]; omega), hmid, List.getElem?_drop]
      rw [if_neg (by omega)]
      congr 1
      omega

/-! ### placeLoop characterization -/

theorem placeLoop_error_eq (rom : List Nat) (sb : Nat) :
    ∀ remaining bank out e, placeLoop rom sb remaining bank out = .error e →
      e = ConvError.overflowError := by
  intro remaining
  induction remaining with
  | zero =>
    intro bank out e h
    exact Except.noConfusion h
  | succ n ih =>
    intro bank out e h
    unfold placeLoop at h
    split at h
    · injection h with h'
      exact h'.symm
    · exact ih (bank + 1) _ e h

theorem placeLoop_ok_of_fits (rom : List Nat) (sb : Nat) :
    ∀ remaining bank out,
      (bank + remaining) * BANK_SIZE ≤ rom.length →
      (sb + bank + remaining) * BANK_SIZE ≤ out.length →
      ∃ res, placeLoop rom sb remaining bank out = .ok res := by
  intro remaining
  induction remaining with
  | zero =>
    intro bank out _ _
    exact ⟨out, rfl⟩
  | succ n ih =>
    intro bank out hrom hfit
    unfold placeLoop
    have hov : ¬((sb + bank) * BANK_SIZE + BANK_SIZE > out.length) := by
      simp only [BANK_SIZE_eq] at hfit ⊢
      omega
    rw [if_neg hov]
    have hd : (sb + bank) * BANK_SIZE + BANK_SIZE ≤ out.length := by omega
    have hs : bank * BANK_SIZE + BANK_SIZE ≤ rom.length := by
      simp only [BANK_SIZE_eq] at hrom ⊢
      omega
    have hlen := memcpy_length out rom ((sb + bank) * BANK_SIZE) (bank * BANK_SIZE)
      BANK_SIZE hd hs
    apply ih (bank + 1)
    · simp only [BANK_SIZE_eq] at hrom ⊢
      omega
    · rw [hlen]
      simp only [BANK_SIZE_eq] at hfit ⊢
      omega

/-- Full characterization of a successful placement run with `remaining`
banks left starting at bank index `bank`: the result keeps the buffer
length, bytes in the window `[(sb+bank)*B, (sb+bank+remaining)*B)` come
from the ROM (shifted by `sb*B`), and all other bytes are untouched. -/
theorem placeLoop_ok_spec (rom : List Nat) (sb : Nat) :
    ∀ remaining bank out res,
      (bank + remaining) * BANK_SIZE ≤ rom.length →
      placeLoop rom sb remaining bank out = .ok res →
      res.length = out.length ∧
      ∀ o, res[o]? =
        if (sb + bank) * BANK_SIZE ≤ o ∧ o < (sb + bank + remaining) * BANK_SIZE
        then rom[o - sb * BANK_SIZE]? else out[o]? := by
  intro remaining
  induction remaining with
  | zero =>
    intro bank out res _ h
    injection h with h'
    subst h'
    refine ⟨rfl, fun o => ?_⟩
    rw [if_neg ?_]
    simp only [BANK_SIZE_eq]
    omega
  | succ n ih =>
    intro bank out res hrom h
    unfold placeLoop at h
    split at h
    · exact Except.noConfusion h
    · rename_i hov
      have hd : (sb + bank) * BANK_SIZE + BANK_SIZE ≤ out.length := by omega
      have hs : bank * BANK_SIZE + BANK_SIZE ≤ rom.length := by
        simp only [BANK_SIZE_eq] at hrom ⊢
        omega
      have hlen := memcpy_length out rom ((sb + bank) * BANK_SIZE) (bank * BANK_SIZE)
        BANK_SIZE hd hs
      obtain ⟨hlen', hspec⟩ := ih (bank + 1) _ res
        (by simp only [BANK_SIZE_eq] at hrom ⊢; omega) h
      refine ⟨hlen'.trans hlen, fun o => ?_⟩
      rw [hspec o, memcpy_getElem out rom ((sb + bank) * BANK_SIZE) (bank * BANK_SIZE)
        BANK_SIZE o hd hs]
      by_cases hA : (sb + (bank + 1)) * BANK_SIZE ≤ o ∧ o < (sb + (bank + 1) + n) * BANK_SIZE
      · rw [if_pos hA, if_pos ?_]
        simp only [BANK_SIZE_eq] at hA ⊢
        omega
      · rw [if_neg hA]
        by_cases hB : (sb + bank) * BANK_SIZE ≤ o ∧ o < (sb + bank) * BANK_SIZE + BANK_SIZE
        · rw [if_pos hB, if_pos ?_]
          · congr 1
            simp only [BANK_SIZE_eq] at hB ⊢
            omega
          · simp only [BANK_SIZE_eq] at hA hB ⊢
            omega
        · rw [if_neg hB, if_neg ?_]
          simp only [BANK_SIZE_eq] at hA hB ⊢
          omega

/-! ### resolveStart facts -/

theorem resolveStart_error_eq (ty : CartType) (hint : Option Nat) (len bc : Nat)
    (e : ConvError) (h : resolveStart ty hint len bc = .error e) :
    e = ConvError.rangeError := by
  cases ty <;> cases hint <;> simp only [resolveStart] at h
  all_goals repeat' split at h
  all_goals
    first
      | exact Except.noConfusion h
      | (injection h with h'; exact h'.symm)

theorem resolveStart_nonS64k_ok (ty : CartType) (hint : Option Nat) (len bc sb : Nat)
    (hty : ty ≠ CartType.Simple64K)
    (h : resolveStart ty hint len bc = .ok sb) : sb = 0 := by
  cases ty <;> simp only [resolveStart] at h
  · injection h with h'; exact h'.symm
  · injection h with h'; exact h'.symm
  · exact absurd rfl hty

theorem resolveStart_s64k_ok_bound (hint : Option Nat) (len bc sb : Nat)
    (h : resolveStart CartType.Simple64K hint len bc = .ok sb) : sb + bc ≤ 8 := by
  cases hint <;> simp only [resolveStart] at h
  all_goals repeat' split at h
  all_goals
    first
      | exact Except.noConfusion h
      | (injection h with h'; subst h'; omega)

theorem resolveStart_s64k_none_ok (len bc sb : Nat)
    (h : resolveStart CartType.Simple64K none len bc = .ok sb) :
    sb = if len / 1024 ≤ 32 then 2 else 0 := by
  simp only [resolveStart] at h
  repeat' split at h
  all_goals
    first
      | exact Except.noConfusion h
      | (injection h with h'; subst h'; split <;> omega)

theorem resolveStart_s64k_some (hintAddr len bc : Nat) :
    resolveStart CartType.Simple64K (some hintAddr) len bc =
      if hintAddr + bc > 8 then .error ConvError.rangeError else .ok hintAddr := rfl

/-! ### convert: inversion and construction -/

theorem convert_ok_inv (rom : List Nat) (chipKib : Nat) (ty : CartType)
    (hint : Option Nat) (out : List Nat) (sb bc : Nat)
    (h : convert rom chipKib ty hint = .ok (out, sb, bc)) :
    bc = bankCount rom ∧
    ¬(ty = CartType.Simple64K ∧ bankCount rom > 8) ∧
    (normalize rom).length ≤ chipKib * 1024 ∧
    resolveStart ty hint (normalize rom).length (bankCount rom) = .ok sb ∧
    placeLoop (normalize rom) sb (bankCount rom) 0
      (List.replicate (chipKib * 1024) 255) = .ok out := by
  simp only [convert, bankCount_def] at h
  split at h
  · exact Except.noConfusion h
  · split at h
    · exact Except.noConfusion h
    · rename_i h1 h2
      split at h
      · exact Except.noConfusion h
      · rename_i sb' hres
        split at h
        · exact Except.noConfusion h
        · rename_i res hplace
          injection h with h'
          obtain ⟨ho, hsb, hbc⟩ : res = out ∧ sb' = sb ∧ bankCount rom = bc := by
            refine ⟨congrArg Prod.fst h', ?_, ?_⟩
            · exact congrArg (fun p => p.2.1) h'
            · exact congrArg (fun p => p.2.2) h'
          subst ho hsb hbc
          exact ⟨rfl, h1, by omega, hres, hplace⟩

theorem convert_ok_construct (rom : List Nat) (chipKib : Nat) (ty : CartType)
    (hint : Option Nat) (sb : Nat)
    (h1 : ¬(ty = CartType.Simple64K ∧ bankCount rom > 8))
    (h2 : (normalize rom).length ≤ chipKib * 1024)
    (h3 : resolveStart ty hint (normalize rom).length (bankCount rom) = .ok sb)
    (h4 : (sb + bankCount rom) * BANK_SIZE ≤ chipKib * 1024) :
    ∃ res, convert rom chipKib ty hint = .ok (res, sb, bankCount rom) := by
  obtain ⟨res, hres⟩ := placeLoop_ok_of_fits (normalize rom) sb (bankCount rom) 0
    (List.replicate (chipKib * 1024) 255)
    (by rw [Nat.zero_add, ← normalize_length_eq_bankCount_mul rom])
    (by rw [List.length_replicate, Nat.add_zero]; exact h4)
  refine ⟨res, ?_⟩
  simp only [convert, bankCount_def]
  rw [if_neg h1, if_neg (by omega), h3]
  simp [hres]

/-- If the chip size is one of the supported values and the resolver
succeeded, the resolved window fits inside the output buffer. -/
theorem convert_fits (rom : List Nat) (chipKib : Nat) (ty : CartType)
    (hint : Option Nat) (sb : Nat)
    (hchip : chipKib = 64 ∨ chipKib = 128 ∨ chipKib = 256 ∨ chipKib = 512)
    (h2 : (normalize rom).length ≤ chipKib * 1024)
    (h3 : resolveStart ty hint (normalize rom).length (bankCount rom) = .ok sb) :
    (sb + bankCount rom) * BANK_SIZE ≤ chipKib * 1024 := by
  have hlen := normalize_length_eq_bankCount_mul rom
  cases ty
  · have hsb := resolveStart_nonS64k_ok _ hint _ _ _ (by simp) h3
    subst hsb
    simp only [BANK_SIZE_eq] at hlen ⊢
    omega
  · have hsb := resolveStart_nonS64k_ok _ hint _ _ _ (by simp) h3
    subst hsb
    simp only [BANK_SIZE_eq] at hlen ⊢
    omega
  · have hb := resolveStart_s64k_ok_bound hint _ _ _ h3
    simp only [BANK_SIZE_eq]
    rcases hchip with h | h | h | h <;> subst h <;> omega

/-! ### verify pass characterization -/

theorem bankBytesLoop_true_of (vb rom : List Nat) (sb b : Nat) :
    ∀ n i, (∀ j, i ≤ j → j < i + n →
        vb.getD ((sb + b) * BANK_SIZE + j) 0 = rom.getD (b * BANK_SIZE + j) 0) →
      bankBytesLoop vb rom sb b n i = true := by
  intro n
  induction n with
  | zero =>
    intro i _
    rfl
  | succ n ih =>
    intro i hall
    unfold bankBytesLoop
    rw [if_pos (beq_iff_eq.mpr (hall i (by omega) (by omega)))]
    exact ih (i + 1) fun j hj1 hj2 => hall j (by omega) (by omega)

theorem bankBytesMatch_true_of (vb rom : List Nat) (sb b : Nat)
    (hall : ∀ j, j < BANK_SIZE →
      vb.getD ((sb + b) * BANK_SIZE + j) 0 = rom.getD (b * BANK_SIZE + j) 0) :
    bankBytesMatch vb rom sb b = true :=
  bankBytesLoop_true_of vb rom sb b BANK_SIZE 0 fun j _ hj2 => hall j (by omega)

theorem verifyBanksLoop_ok_of (vb rom : List Nat) (sb : Nat) :
    ∀ n k, (∀ b, k ≤ b → b < k + n → bankBytesMatch vb rom sb b = true) →
      verifyBanksLoop vb rom sb n k = .ok () := by
  intro n
  induction n with
  | zero =>
    intro k _
    rfl
  | succ n ih =>
    intro k hall
    unfold verifyBanksLoop
    rw [if_pos (hall k (by omega) (by omega))]
    exact ih (k + 1) fun b hb1 hb2 => hall b (by omega) (by omega)

theorem verifyBanksLoop_error_firstBad (vb rom : List Nat) (sb : Nat) :
    ∀ n k e, verifyBanksLoop vb rom sb n k = .error e →
      ∃ b, e = VerifyError.bankMismatch b ∧
        firstBadLoop vb rom sb n k = some b := by
  intro n
  induction n with
  | zero =>
    intro k e h
    exact Except.noConfusion h
  | succ n ih =>
    intro k e h
    unfold verifyBanksLoop at h
    by_cases hm : bankBytesMatch vb rom sb k = true
    · rw [if_pos hm] at h
      obtain ⟨b, hb1, hb2⟩ := ih (k + 1) e h
      refine ⟨b, hb1, ?_⟩
      unfold firstBadLoop
      rw [if_pos hm]
      exact hb2
    · rw [if_neg hm] at h
      injection h with h'
      refine ⟨k, h'.symm, ?_⟩
      unfold firstBadLoop
      rw [if_neg hm]

theorem verifyBanksLoop_ok_firstBad (vb rom : List Nat) (sb : Nat) :
    ∀ n k, verifyBanksLoop vb rom sb n k = .ok () →
      firstBadLoop vb rom sb n k = none := by
  intro n
  induction n with
  | zero =>
    intro k _
    rfl
  | succ n ih =>
    intro k h
    unfold verifyBanksLoop at h
    by_cases hm : bankBytesMatch vb rom sb k = true
    · rw [if_pos hm] at h
      unfold firstBadLoop
      rw [if_pos hm]
      exact ih (k + 1) h
    · rw [if_neg hm] at h
      exact Except.noConfusion h

theorem verifyOutsideLoop_ok_of (vb : List Nat) (sb bc : Nat) :
    ∀ n i, (∀ j, i ≤ j → j < i + n →
        (sb ≤ j / BANK_SIZE ∧ j / BANK_SIZE < sb + bc) ∨ vb.getD j 0 = 255) →
      verifyOutsideLoop vb sb bc n i = .ok () := by
  intro n
  induction n with
  | zero =>
    intro i _
    rfl
  | succ n ih =>
    intro i hall
    unfold verifyOutsideLoop
    rw [if_neg ?_]
    · exact ih (i + 1) fun j hj1 hj2 => hall j (by omega) (by omega)
    · rcases hall i (by omega) (by omega) with hw | hff
      · exact fun hc => hc.1 hw
      · exact fun hc => hc.2 hff

theorem verifyOutsideLoop_error_inv (vb : List Nat) (sb bc : Nat) :
    ∀ n i e, verifyOutsideLoop vb sb bc n i = .error e →
      e = VerifyError.outsideNonFF ∧
      ∃ j, i ≤ j ∧ j < i + n ∧
        ¬(sb ≤ j / BANK_SIZE ∧ j / BANK_SIZE < sb + bc) ∧ vb.getD j 0 ≠ 255 := by
  intro n
  induction n with
  | zero =>
    intro i e h
    exact Except.noConfusion h
  | succ n ih =>
    intro i e h
    unfold verifyOutsideLoop at h
    split at h
    · rename_i hc
      injection h with h'
      exact ⟨h'.symm, i, by omega, by omega, hc.1, hc.2⟩
    · obtain ⟨he, j, hj1, hj2, hj3, hj4⟩ := ih (i + 1) e h
      exact ⟨he, j, by omega, by omega, hj3, hj4⟩

/-! ### Facts about concrete inputs used as test vectors -/

theorem normalize_length_replicate (n : Nat) :
    (normalize (List.replicate n 0)).length = (n + 8191) / 8192 * 8192 := by
  rw [normalize_length]
  simp only [List.length_replicate, BANK_SIZE_eq]
  omega

theorem bankCount_replicate (n : Nat) :
    bankCount (List.replicate n 0) = (n + 8191) / 8192 := by
  unfold bankCount
  rw [normalize_length]
  simp only [List.length_replicate, BANK_SIZE_eq]
  omega

/-- The Simple64K 8-bank window check (lines 125-129). -/
theorem convert_s64k_window (rom : List Nat) (chipKib : Nat) (hint : Option Nat)
    (h : bankCount rom > 8) :
    convert rom chipKib CartType.Simple64K hint = .error ConvError.capacityError := by
  simp only [convert, bankCount_def]
  rw [if_pos ⟨trivial, h⟩]

/-- The chip-capacity check (lines 131-133). -/
theorem convert_chip_capacity (rom : List Nat) (chipKib : Nat) (ty : CartType)
    (hint : Option Nat) (h : (normalize rom).length > chipKib * 1024) :
    convert rom chipKib ty hint = .error ConvError.capacityError := by
  by_cases h1 : ty = CartType.Simple64K ∧ bankCount rom > 8
  · simp only [convert, bankCount_def]
    rw [if_pos h1]
  · simp only [convert, bankCount_def]
    rw [if_neg h1, if_pos h]

/-- A 160 KiB ROM on a 128 KiB chip is rejected by the chip-capacity
check. -/
theorem convert_160k_capacity :
    convert (List.replicate 163840 0) 128 CartType.MegaSCC none =
      .error ConvError.capacityError :=
  convert_chip_capacity _ _ _ _ (by rw [normalize_length_replicate]; omega)

/-! ### Claim theorems -/

/-- C1: for every conversion that succeeds, the output image has length
exactly `chip_capacity_kib * 1024` bytes; the byte at offset `o` equals
`rom_normalized[o - start_bank*8192]` whenever `o` lies in
`[(start_bank+i)*8192, (start_bank+i)*8192+8192)` for some
`i < bank_count`, and equals `0xFF` (255) at every other offset. -/
theorem C1_output_layout (rom : List Nat) (chipKib : Nat) (ty : CartType)
    (hint : Option Nat) (out : List Nat) (sb bc : Nat)
    (h : convert rom chipKib ty hint = .ok (out, sb, bc)) :
    out.length = chipKib * 1024 ∧
    ∀ o, o < chipKib * 1024 →
      ((∃ i, i < bc ∧ (sb + i) * 8192 ≤ o ∧ o < (sb + i) * 8192 + 8192) →
        out[o]? = (normalize rom)[o - sb * 8192]?) ∧
      ((∀ i, i < bc → ¬((sb + i) * 8192 ≤ o ∧ o < (sb + i) * 8192 + 8192)) →
        out[o]? = some 255) := by
  obtain ⟨hbc, h1, h2, h3, h4⟩ := convert_ok_inv rom chipKib ty hint out sb bc h
  subst hbc
  obtain ⟨hlen, hspec⟩ := placeLoop_ok_spec (normalize rom) sb (bankCount rom) 0 _ out
    (by rw [Nat.zero_add, ← normalize_length_eq_bankCount_mul rom]) h4
  simp only [BANK_SIZE_eq, Nat.add_zero] at hspec
  refine ⟨by rw [hlen, List.length_replicate], fun o ho => ⟨?_, ?_⟩⟩
  · rintro ⟨i, hi, hio1, hio2⟩
    rw [hspec o, if_pos ⟨by omega, by omega⟩]
  · intro hno
    rw [hspec o, if_neg ?hreg, List.getElem?_replicate, if_pos ho]
    case hreg =>
      rintro ⟨ha, hb⟩
      exact hno (o / 8192 - sb) (by omega) ⟨by omega, by omega⟩

/-- C1 witness: the empty ROM on a 64 KiB chip converts to an image of
65536 bytes. -/
theorem C1_output_layout_witness :
    convert [] 64 CartType.MegaSCC none = .ok (List.replicate 65536 255, 0, 0) ∧
    (List.replicate 65536 (255 : Nat)).length = 64 * 1024 := by
  have h : convert [] 64 CartType.MegaSCC none = .ok (List.replicate 65536 255, 0, 0) := rfl
  exact ⟨h, (C1_output_layout [] 64 CartType.MegaSCC none (List.replicate 65536 255)
    0 0 h).1⟩

/-- C2: for every input ROM, supported chip size, mapper and optional
hint for which the conversion succeeds, running the verifier on the
produced output with the normalized ROM and the resolved start bank and
bank count succeeds (no VerifyMismatch). -/
theorem C2_round_trip (rom : List Nat) (chipKib : Nat) (ty : CartType)
    (hint : Option Nat) (out : List Nat) (sb bc : Nat)
    (hchip : chipKib = 64 ∨ chipKib = 128 ∨ chipKib = 256 ∨ chipKib = 512)
    (h : convert rom chipKib ty hint = .ok (out, sb, bc)) :
    verify out (normalize rom) sb bc = .ok () := by
  obtain ⟨hbc, h1, h2, h3, h4⟩ := convert_ok_inv rom chipKib ty hint out sb bc h
  subst hbc
  obtain ⟨hlen, hspec⟩ := placeLoop_ok_spec (normalize rom) sb (bankCount rom) 0 _ out
    (by rw [Nat.zero_add, ← normalize_length_eq_bankCount_mul rom]) h4
  simp only [BANK_SIZE_eq, Nat.add_zero] at hspec
  have houtlen : out.length = chipKib * 1024 := by
    rw [hlen, List.length_replicate]
  have hnorm := normalize_length_eq_bankCount_mul rom
  simp only [BANK_SIZE_eq] at hnorm
  have hfit : (sb + bankCount rom) * 8192 ≤ chipKib * 1024 := by
    have := convert_fits rom chipKib ty hint sb hchip h2 h3
    simp only [BANK_SIZE_eq] at this
    exact this
  -- every placed byte agrees with the ROM
  have hbanks : ∀ b, 0 ≤ b → b < 0 + bankCount rom →
      bankBytesMatch out (normalize rom) sb b = true := by
    intro b _ hb
    apply bankBytesMatch_true_of
    intro j hj
    simp only [BANK_SIZE_eq] at hj ⊢
    have ho : (sb + b) * 8192 + j < chipKib * 1024 := by omega
    have h5 := hspec ((sb + b) * 8192 + j)
    rw [if_pos ⟨by omega, by omega⟩] at h5
    have hidx : (sb + b) * 8192 + j - sb * 8192 = b * 8192 + j := by omega
    rw [hidx] at h5
    have hr : b * 8192 + j < (normalize rom).length := by omega
    rw [List.getD_eq_getElem?_getD, List.getD_eq_getElem?_getD, h5]
  -- every byte outside the window is 0xFF
  have houtside : ∀ j, 0 ≤ j → j < 0 + out.length →
      (sb ≤ j / BANK_SIZE ∧ j / BANK_SIZE < sb + bankCount rom) ∨
        out.getD j 0 = 255 := by
    intro j _ hj
    simp only [BANK_SIZE_eq]
    by_cases hw : sb * 8192 ≤ j ∧ j < (sb + bankCount rom) * 8192
    · left
      constructor <;> omega
    · right
      have h5 := hspec j
      rw [if_neg hw] at h5
      rw [List.getD_eq_getElem?_getD, h5, List.getElem?_replicate,
        if_pos (by omega)]
      rfl
  unfold verify
  rw [verifyBanksLoop_ok_of out (normalize rom) sb (bankCount rom) 0 hbanks]
  exact verifyOutsideLoop_ok_of out sb (bankCount rom) out.length 0 houtside

/-- C2 witness: the empty ROM on a 64 KiB chip converts successfully and
the verifier accepts the produced image. -/
theorem C2_round_trip_witness :
    verify (List.replicate 65536 255) (normalize []) 0 0 = .ok () :=
  C2_round_trip [] 64 CartType.MegaSCC none (List.replicate 65536 255) 0 0
    (Or.inl rfl) rfl

/-- C3: every Simple64K conversion without an explicit start hint
resolves `start_bank = 2` when `normalized_length / 1024 ≤ 32` and
`start_bank = 0` otherwise; in particular a 32 KiB ROM (4 banks) gets
`start_bank = 2` and a 32 KiB + 1 byte ROM (5 banks after padding) gets
`start_bank = 0`. -/
theorem C3_s64k_auto_start :
    (∀ rom chipKib,
      startOf (convert rom chipKib CartType.Simple64K none) = none ∨
      startOf (convert rom chipKib CartType.Simple64K none) =
        some (if (normalize rom).length / 1024 ≤ 32 then 2 else 0)) ∧
    startOf (convert (List.replicate 32768 0) 128 CartType.Simple64K none) = some 2 ∧
    bankCount (List.replicate 32768 0) = 4 ∧
    startOf (convert (List.replicate 32769 0) 128 CartType.Simple64K none) = some 0 ∧
    bankCount (List.replicate 32769 0) = 5 := by
  have hb1 : bankCount (List.replicate 32768 0) = 4 := by
    rw [bankCount_replicate]
  have hb2 : bankCount (List.replicate 32769 0) = 5 := by
    rw [bankCount_replicate]
  have hn1 : (normalize (List.replicate 32768 0)).length = 32768 := by
    rw [normalize_length_replicate]
  have hn2 : (normalize (List.replicate 32769 0)).length = 40960 := by
    rw [normalize_length_replicate]
  refine ⟨?_, ?_, hb1, ?_, hb2⟩
  · intro rom chipKib
    cases hc : convert rom chipKib CartType.Simple64K none with
    | error e =>
      left
      simp [startOf]
    | ok t =>
      right
      obtain ⟨out, sb, bc⟩ := t
      obtain ⟨hbc, h1, h2, h3, _⟩ :=
        convert_ok_inv rom chipKib CartType.Simple64K none out sb bc hc
      have hsb := resolveStart_s64k_none_ok _ _ _ h3
      simp [startOf, hsb]
  · obtain ⟨res, hres⟩ := convert_ok_construct (List.replicate 32768 0) 128
      CartType.Simple64K none 2
      (by rw [hb1]; omega)
      (by rw [hn1]; omega)
      (by rw [hn1, hb1]; rfl)
      (by rw [hb1]; simp only [BANK_SIZE_eq]; omega)
    rw [hres]
    rfl
  · obtain ⟨res, hres⟩ := convert_ok_construct (List.replicate 32769 0) 128
      CartType.Simple64K none 0
      (by rw [hb2]; omega)
      (by rw [hn2]; omega)
      (by rw [hn2, hb2]; rfl)
      (by rw [hb2]; simp only [BANK_SIZE_eq]; omega)
    rw [hres]
    rfl

/-- C4 counterexample: a 9-bank (72 KiB) ROM with hint 0 satisfies
`h + bank_count > 8`, yet the conversion fails with `CapacityError`
(the Simple64K window check fires first), not with `RangeError` as the
claim's "if and only if" requires. -/
theorem C4_counterexample :
    bankCount (List.replicate 73728 0) = 9 ∧
    0 + bankCount (List.replicate 73728 0) > 8 ∧
    convert (List.replicate 73728 0) 128 CartType.Simple64K (some 0) =
      .error ConvError.capacityError ∧
    convert (List.replicate 73728 0) 128 CartType.Simple64K (some 0) ≠
      .error ConvError.rangeError := by
  have hb : bankCount (List.replicate 73728 0) = 9 := by
    rw [bankCount_replicate]
  have hc : convert (List.replicate 73728 0) 128 CartType.Simple64K (some 0) =
      .error ConvError.capacityError :=
    convert_s64k_window _ _ _ (by rw [hb]; omega)
  refine ⟨hb, by rw [hb]; omega, hc, ?_⟩
  rw [hc]
  intro hcc
  injection hcc with h'
  exact ConvError.noConfusion h'

/-- C4 (amended): for every Simple64K conversion with an explicit start
hint `h` in 0..7 and a supported chip size, if the normalized bank count
is at most 8 then the conversion fails with `RangeError` exactly when
`h + bank_count > 8` and otherwise succeeds with `start_bank = h`;
if the bank count exceeds 8 the conversion instead fails with
`CapacityError` (the window check precedes the hint check). -/
theorem C4_s64k_hint (rom : List Nat) (chipKib hintAddr : Nat)
    (hh : hintAddr ≤ 7)
    (hchip : chipKib = 64 ∨ chipKib = 128 ∨ chipKib = 256 ∨ chipKib = 512) :
    (bankCount rom > 8 →
      convert rom chipKib CartType.Simple64K (some hintAddr) =
        .error ConvError.capacityError) ∧
    (bankCount rom ≤ 8 → hintAddr + bankCount rom > 8 →
      convert rom chipKib CartType.Simple64K (some hintAddr) =
        .error ConvError.rangeError) ∧
    (hintAddr + bankCount rom ≤ 8 →
      convert rom chipKib CartType.Simple64K (some hintAddr) =
        .ok (okOut (convert rom chipKib CartType.Simple64K (some hintAddr)),
          hintAddr, bankCount rom)) := by
  have hnorm := normalize_length_eq_bankCount_mul rom
  simp only [BANK_SIZE_eq] at hnorm
  refine ⟨fun hgt => convert_s64k_window rom chipKib (some hintAddr) hgt, ?_, ?_⟩
  · intro hle hgt
    simp only [convert, bankCount_def]
    rw [if_neg (by simp only [true_and]; omega),
      if_neg (by rw [hnorm]; rcases hchip with h | h | h | h <;> subst h <;> omega),
      resolveStart_s64k_some, if_pos (by omega)]
  · intro hle
    obtain ⟨res, hres⟩ := convert_ok_construct rom chipKib CartType.Simple64K
      (some hintAddr) hintAddr
      (by rw [not_and]; intro _; omega)
      (by rw [hnorm]; rcases hchip with h | h | h | h <;> subst h <;> omega)
      (by rw [resolveStart_s64k_some, if_neg (by omega)])
      (by simp only [BANK_SIZE_eq]
          rcases hchip with h | h | h | h <;> subst h <;> omega)
    rw [hres]
    simp [okOut]

/-- C4 witness: a 2-bank ROM with hint 7 is rejected with `RangeError`,
with hint 6 it succeeds at start bank 6, and a 9-bank ROM with hint 0 is
rejected with `CapacityError`. -/
theorem C4_s64k_hint_witness :
    convert (List.replicate 16384 0) 128 CartType.Simple64K (some 7) =
      .error ConvError.rangeError ∧
    convert (List.replicate 16384 0) 128 CartType.Simple64K (some 6) =
      .ok (okOut (convert (List.replicate 16384 0) 128 CartType.Simple64K (some 6)),
        6, bankCount (List.replicate 16384 0)) ∧
    convert (List.replicate 73728 0) 128 CartType.Simple64K (some 0) =
      .error ConvError.capacityError := by
  have hb : bankCount (List.replicate 16384 0) = 2 := by
    rw [bankCount_replicate]
  have hb9 : bankCount (List.replicate 73728 0) = 9 := by
    rw [bankCount_replicate]
  refine ⟨?_, ?_, ?_⟩
  · exact (C4_s64k_hint (List.replicate 16384 0) 128 7 (by omega)
      (Or.inr (Or.inl rfl))).2.1 (by rw [hb]; omega) (by rw [hb]; omega)
  · exact (C4_s64k_hint (List.replicate 16384 0) 128 6 (by omega)
      (Or.inr (Or.inl rfl))).2.2 (by rw [hb])
  · exact (C4_s64k_hint (List.replicate 73728 0) 128 0 (by omega)
      (Or.inr (Or.inl rfl))).1 (by rw [hb9]; omega)

/-- C5: the conversion fails with `CapacityError` exactly when the
mapper is Simple64K and the normalized bank count exceeds 8 (for any
chip size), or the normalized ROM length exceeds the selected chip
capacity; in particular a 160 KiB ROM on a 128 KiB chip fails with
`CapacityError`. -/
theorem C5_capacity_iff (rom : List Nat) (chipKib : Nat) (ty : CartType)
    (hint : Option Nat) :
    (convert rom chipKib ty hint = .error ConvError.capacityError ↔
      ((ty = CartType.Simple64K ∧ bankCount rom > 8) ∨
        (normalize rom).length > chipKib * 1024)) ∧
    convert (List.replicate 163840 0) 128 CartType.MegaSCC none =
      .error ConvError.capacityError := by
  refine ⟨⟨?_, ?_⟩, convert_160k_capacity⟩
  · intro h
    by_cases h1 : ty = CartType.Simple64K ∧ bankCount rom > 8
    · exact Or.inl h1
    by_cases h2 : (normalize rom).length > chipKib * 1024
    · exact Or.inr h2
    exfalso
    simp only [convert, bankCount_def] at h
    rw [if_neg h1, if_neg h2] at h
    split at h
    · rename_i e hres
      injection h with h'
      have h3 := resolveStart_error_eq ty hint _ _ e hres
      exact ConvError.noConfusion (h3.symm.trans h')
    · rename_i sb hres
      split at h
      · rename_i e hplace
        injection h with h'
        have h3 := placeLoop_error_eq (normalize rom) sb _ _ _ e hplace
        exact ConvError.noConfusion (h3.symm.trans h')
      · exact Except.noConfusion h
  · intro hor
    by_cases h1 : ty = CartType.Simple64K ∧ bankCount rom > 8
    · obtain ⟨hty, hgt⟩ := h1
      subst hty
      exact convert_s64k_window rom chipKib hint hgt
    · rcases hor with hc1 | hc2
      · exact absurd hc1 h1
      · exact convert_chip_capacity rom chipKib ty hint hc2

/-- C6: whenever the conversion fails (with `CapacityError`,
`RangeError` or `OverflowError`), the run aborts before the write step:
the trace holds only the error event and no bytes are written to the
sink. -/
theorem C6_no_partial_output (rom : List Nat) (chipKib : Nat) (ty : CartType)
    (hint : Option Nat) (e : ConvError)
    (h : convert rom chipKib ty hint = .error e) :
    runMain rom chipKib ty hint = [Event.errorAbort e] ∧
    ∀ bytes, Event.wrote bytes ∉ runMain rom chipKib ty hint := by
  have h1 : runMain rom chipKib ty hint = [Event.errorAbort e] := by
    unfold runMain
    rw [h]
  refine ⟨h1, fun bytes hmem => ?_⟩
  rw [h1] at hmem
  exact Event.noConfusion (List.mem_singleton.mp hmem)

/-- C6 witness: the rejected 160 KiB ROM produces only an error-abort
event; nothing is written. -/
theorem C6_no_partial_output_witness :
    runMain (List.replicate 163840 0) 128 CartType.MegaSCC none =
      [Event.errorAbort ConvError.capacityError] ∧
    Event.wrote [] ∉ runMain (List.replicate 163840 0) 128 CartType.MegaSCC none := by
  have h := C6_no_partial_output (List.replicate 163840 0) 128 CartType.MegaSCC none
    ConvError.capacityError convert_160k_capacity
  exact ⟨h.1, h.2 []⟩

/-- C7: with a supported chip size, the conversion never fails with
`OverflowError` (the placer's defensive branch is unreachable), and in
every successful conversion each destination range lies within the
output buffer. -/
theorem C7_overflow_unreachable (rom : List Nat) (chipKib : Nat) (ty : CartType)
    (hint : Option Nat)
    (hchip : chipKib = 64 ∨ chipKib = 128 ∨ chipKib = 256 ∨ chipKib = 512) :
    convert rom chipKib ty hint ≠ .error ConvError.overflowError ∧
    ∀ out sb bc, convert rom chipKib ty hint = .ok (out, sb, bc) →
      ∀ i, i < bc → (sb + i) * 8192 + 8192 ≤ chipKib * 1024 := by
  constructor
  · intro h
    by_cases h1 : ty = CartType.Simple64K ∧ bankCount rom > 8
    · obtain ⟨hty, hgt⟩ := h1
      subst hty
      rw [convert_s64k_window rom chipKib hint hgt] at h
      injection h with h'
      exact ConvError.noConfusion h'
    by_cases h2 : (normalize rom).length > chipKib * 1024
    · rw [convert_chip_capacity rom chipKib ty hint h2] at h
      injection h with h'
      exact ConvError.noConfusion h'
    simp only [convert, bankCount_def] at h
    rw [if_neg h1, if_neg h2] at h
    split at h
    · rename_i e hres
      injection h with h'
      have h3 := resolveStart_error_eq ty hint _ _ e hres
      exact ConvError.noConfusion (h3.symm.trans h')
    · rename_i sb hres
      have hfits := convert_fits rom chipKib ty hint sb hchip (by omega) hres
      obtain ⟨res, hok⟩ := placeLoop_ok_of_fits (normalize rom) sb (bankCount rom) 0
        (List.replicate (chipKib * 1024) 255)
        (by rw [Nat.zero_add, ← normalize_length_eq_bankCount_mul rom])
        (by rw [List.length_replicate, Nat.add_zero]; exact hfits)
      rw [hok] at h
      exact Except.noConfusion h
  · intro out sb bc hok i hi
    obtain ⟨hbc, h1, h2, h3, _⟩ := convert_ok_inv rom chipKib ty hint out sb bc hok
    subst hbc
    have hfits := convert_fits rom chipKib ty hint sb hchip h2 h3
    simp only [BANK_SIZE_eq] at hfits
    omega

/-- C7 witness: no overflow for the empty ROM on a 64 KiB chip, and the
single destination range of a 1-byte ROM fits in the buffer. -/
theorem C7_overflow_unreachable_witness :
    convert [] 64 CartType.MegaSCC none ≠ .error ConvError.overflowError ∧
    (0 + 0) * 8192 + 8192 ≤ 64 * 1024 := by
  have hb : bankCount [5] = 1 := by
    unfold bankCount
    rw [normalize_length]
    simp only [List.length_cons, List.length_nil, BANK_SIZE_eq]
    try omega
  obtain ⟨res, hok⟩ := convert_ok_construct [5] 64 CartType.MegaSCC none 0
    (by simp)
    (by rw [normalize_length]
        simp only [List.length_cons, List.length_nil, BANK_SIZE_eq]
        try omega)
    rfl
    (by rw [hb]; simp only [BANK_SIZE_eq]; omega)
  refine ⟨(C7_overflow_unreachable [] 64 CartType.MegaSCC none (Or.inl rfl)).1, ?_⟩
  exact (C7_overflow_unreachable [5] 64 CartType.MegaSCC none (Or.inl rfl)).2
    res 0 (bankCount [5]) hok 0 (by rw [hb]; omega)

/-- C8: for every ROM content, chip size and hint, converting with
MegaSCC and with RC755 produces identical results (byte-for-byte equal
images, same start bank and bank count), and the start bank is 0
whenever the conversion succeeds. -/
theorem C8_mega_rc755_identical (rom : List Nat) (chipKib : Nat) (hint : Option Nat) :
    convert rom chipKib CartType.MegaSCC hint =
      convert rom chipKib CartType.RC755 hint ∧
    (startOf (convert rom chipKib CartType.MegaSCC hint) = none ∨
      startOf (convert rom chipKib CartType.MegaSCC hint) = some 0) := by
  constructor
  · cases hint <;> rfl
  · cases hres : convert rom chipKib CartType.MegaSCC hint with
    | error e =>
      left
      simp [startOf]
    | ok t =>
      right
      obtain ⟨out, sb, bc⟩ := t
      obtain ⟨_, _, _, h3, _⟩ :=
        convert_ok_inv rom chipKib CartType.MegaSCC hint out sb bc hres
      have hsb := resolveStart_nonS64k_ok _ hint _ _ _ (by simp) h3
      subst hsb
      simp [startOf]

/-- C9 counterexample: the outside-the-window check reports a fixed,
locationless error.  Two images whose first offending offsets differ
(0 and 1) produce the very same error value, so the verifier does not
name the first offending byte offset as the claim states. -/
theorem C9_counterexample :
    verify [0, 255] [] 0 0 = .error VerifyError.outsideNonFF ∧
    verify [255, 0] [] 0 0 = .error VerifyError.outsideNonFF ∧
    verify [0, 255] [] 0 0 = verify [255, 0] [] 0 0 ∧
    List.findIdx (fun b => !(b == 255)) [0, 255] = 0 ∧
    List.findIdx (fun b => !(b == 255)) [255, 0] = 1 :=
  ⟨rfl, rfl, rfl, rfl, rfl⟩

/-- C9 (amended): when the verifier detects a bank-content mismatch it
fails with `VerifyMismatch` naming the first offending bank index; when
it detects a non-0xFF byte outside the placed ranges it fails with a
`VerifyMismatch` that reports only a generic message, without naming
the offending offset (all banks having matched, and some outside byte
being non-0xFF). -/
theorem C9_verify_first_location (vb rom : List Nat) (sb bc : Nat) :
    (∀ b, verify vb rom sb bc = .error (VerifyError.bankMismatch b) →
      firstBadBank vb rom sb bc = some b) ∧
    (verify vb rom sb bc = .error VerifyError.outsideNonFF →
      firstBadBank vb rom sb bc = none ∧ anyOutsideNonFF vb sb bc = true) := by
  constructor
  · intro b h
    unfold verify at h
    split at h
    · rename_i e hvb
      injection h with h'
      subst h'
      obtain ⟨b', hb1, hb2⟩ := verifyBanksLoop_error_firstBad vb rom sb bc 0 _ hvb
      injection hb1 with hbb
      unfold firstBadBank
      rw [hb2, hbb]
    · obtain ⟨he, _⟩ := verifyOutsideLoop_error_inv vb sb bc vb.length 0 _ h
      exact VerifyError.noConfusion he
  · intro h
    unfold verify at h
    split at h
    · rename_i e hvb
      injection h with h'
      subst h'
      obtain ⟨b', hb1, _⟩ := verifyBanksLoop_error_firstBad vb rom sb bc 0 _ hvb
      exact VerifyError.noConfusion hb1
    · rename_i u hvb
      constructor
      · unfold firstBadBank
        apply verifyBanksLoop_ok_firstBad vb rom sb bc 0
        rw [hvb]
      · obtain ⟨_, j, hj1, hj2, hj3, hj4⟩ :=
          verifyOutsideLoop_error_inv vb sb bc vb.length 0 _ h
        unfold anyOutsideNonFF
        rw [List.any_eq_true]
        refine ⟨j, List.mem_range.mpr (by omega), ?_⟩
        rw [Bool.and_eq_true, Bool.not_eq_true', Bool.not_eq_true']
        exact ⟨decide_eq_false hj3, beq_eq_false_iff_ne.mpr hj4⟩

/-- C9 witness: a mismatching single bank is reported as bank 0, and an
image whose byte 0 is not 0xFF outside an empty window triggers the
generic outside error. -/
theorem C9_verify_first_location_witness :
    firstBadBank [] [1] 0 1 = some 0 ∧
    firstBadBank [0] [] 0 0 = none ∧ anyOutsideNonFF [0] 0 0 = true := by
  have h1 := (C9_verify_first_location [] [1] 0 1).1 0 rfl
  have h2 := (C9_verify_first_location [0] [] 0 0).2 rfl
  exact ⟨h1, h2.1, h2.2⟩

/-- An empty ROM converts to an all-0xFF image of the chip's capacity
whenever the resolver accepts the empty bank list. -/
theorem convert_nil (chipKib : Nat) (ty : CartType) (hint : Option Nat) (sb : Nat)
    (hres : resolveStart ty hint 0 0 = .ok sb) :
    convert [] chipKib ty hint = .ok (List.replicate (chipKib * 1024) 255, sb, 0) := by
  simp only [convert, normalize_nil, List.length_nil, Nat.zero_div]
  rw [if_neg (by simp), if_neg (by omega), hres]
  rfl

/-- C10: a zero-length input ROM is accepted by every mapper, chip size
and hint in 0..7: it normalizes to the empty buffer with
`bank_count = 0`, start-bank resolution succeeds (2 for hintless
Simple64K, the hint itself with one, 0 for the other mappers), and the
output is the all-0xFF image of the chip's full capacity. -/
theorem C10_empty_rom (chipKib : Nat) (ty : CartType) (hintAddr : Nat)
    (hh : hintAddr ≤ 7) :
    convert [] chipKib ty none =
      .ok (List.replicate (chipKib * 1024) 255,
        (match ty with | CartType.Simple64K => 2 | _ => 0), 0) ∧
    convert [] chipKib ty (some hintAddr) =
      .ok (List.replicate (chipKib * 1024) 255,
        (match ty with | CartType.Simple64K => hintAddr | _ => 0), 0) := by
  cases ty
  · exact ⟨convert_nil chipKib _ none 0 rfl, convert_nil chipKib _ (some hintAddr) 0 rfl⟩
  · exact ⟨convert_nil chipKib _ none 0 rfl, convert_nil chipKib _ (some hintAddr) 0 rfl⟩
  · refine ⟨convert_nil chipKib _ none 2 rfl,
      convert_nil chipKib _ (some hintAddr) hintAddr ?_⟩
    rw [resolveStart_s64k_some, if_neg (by omega)]

/-- C10 witness: the empty ROM on a 64 KiB chip with Simple64K, without
hint and with hint 7. -/
theorem C10_empty_rom_witness :
    convert [] 64 CartType.Simple64K none = .ok (List.replicate 65536 255, 2, 0) ∧
    convert [] 64 CartType.Simple64K (some 7) = .ok (List.replicate 65536 255, 7, 0) := by
  have h := C10_empty_rom 64 CartType.Simple64K 7 (by omega)
  exact ⟨h.1, h.2⟩

end Rom2Msx
